import Mathlib

/-!
Verification of the chain-ordering engine (`src/src/whiteboard.js`).

The engine keeps an ordered list of records linked through `lowerId`.  The
definitions below are a shallow embedding of the source: the constructor's
three loops (`checkUnique`, `validateFrom`, `linearizeAux`), the queries
`items()`/`top()`, the mutator `add` and the clipboard operation `extract`.
JavaScript `undefined` is modelled as `none`; the empty string is a valid
`Option.some` value, and the source's truthiness guards are captured by
`lowerRef`.  The source's unbounded recursions (`checkCycle`,
`addItemToOrder`) are bounded by a fuel argument that is always sufficient
for the inputs on which the source terminates.
-/

/-- An item on the whiteboard: `id`, optional `lowerId` back-reference and
uninterpreted payload `data`.  `lowerId = none` models the JavaScript `undefined`;
`some ""` models a present-but-falsy empty string. -/
structure Item where
  id : String
  lowerId : Option String
  data : String
deriving DecidableEq

/-- Failure kinds of the engine, named as in the specification.  The source
throws `Error` with a corresponding message.  `fuelExhausted` is an artifact
of bounding the source's recursion with fuel; it is never produced on inputs
where the source terminates (in particular never after validation passes). -/
inductive WbError where
  | duplicateId : String → WbError
  | danglingRef : String → WbError
  | cycleDetected : String → WbError
  | brokenChain : Option String → WbError
  | notFound : String → WbError
  | fuelExhausted : WbError
deriving DecidableEq

/-- The reference that the source's guards actually follow: JavaScript
truthiness of `item.lowerId` (`undefined` and `""` are falsy). -/
def lowerRef (r : Item) : Option String :=
  match r.lowerId with
  | none => none
  | some s => if s == "" then none else some s

/-- `itemMap.has(x)` over the input list (ids are unique whenever the map
is consulted after the first loop). -/
def hasId (items : List Item) (s : String) : Bool :=
  items.any fun r => r.id == s

/-- `itemMap.get(x)` over the input list. -/
def getById (items : List Item) (s : String) : Option Item :=
  items.find? fun r => r.id == s

/-- First constructor loop: duplicate-id check while building the id map. -/
def checkUniqueAux : List Item → List String → Except WbError Unit
  | [], _ => .ok ()
  | r :: rest, seen =>
    if seen.contains r.id then .error (.duplicateId r.id)
    else checkUniqueAux rest (r.id :: seen)

/-- The duplicate-id validation of the constructor. -/
def checkUnique (items : List Item) : Except WbError Unit :=
  checkUniqueAux items []

/-- The dangling-reference test of the second constructor loop:
`item.lowerId && !itemMap.has(item.lowerId)`. -/
def danglingOf (items : List Item) (r : Item) : Option String :=
  match lowerRef r with
  | none => none
  | some s => if hasId items s then none else some s

/-- `checkCycle`: walk the `lowerId` chain downward, erroring when an id is
revisited within the current walk.  The source recurses without a bound;
`fuel` bounds the recursion and is always sufficient at the call sites in
this file. -/
def checkCycleWalk (items : List Item) : Nat → List String → Item → Except WbError Unit
  | 0, _, _ => .error .fuelExhausted
  | fuel + 1, visited, r =>
    if visited.contains r.id then .error (.cycleDetected r.id)
    else
      match lowerRef r with
      | none => .ok ()
      | some s =>
        match getById items s with
        | none => .ok ()
        | some lower => checkCycleWalk items fuel (r.id :: visited) lower

/-- Second constructor loop: for each record in input order, the
dangling-reference check, then a cycle walk starting at that record. -/
def validateFrom (items : List Item) : List Item → Except WbError Unit
  | [] => .ok ()
  | r :: rest =>
    match danglingOf items r with
    | some s => .error (.danglingRef s)
    | none =>
      match checkCycleWalk items (items.length + 1) [] r with
      | .error e => .error e
      | .ok _ => validateFrom items rest

/-- `addItemToOrder`: recursively place the lower record first, then the
record itself, skipping records already placed.  The state is the pair
`(orderedItems, addedItems)`. -/
def addItemToOrder (items : List Item) :
    Nat → Item → List Item × List String → Option (List Item × List String)
  | 0, _, _ => none
  | fuel + 1, r, (ordered, added) =>
    if added.contains r.id then some (ordered, added)
    else
      match lowerRef r with
      | none => some (ordered ++ [r], r.id :: added)
      | some s =>
        match getById items s with
        | none => some (ordered ++ [r], r.id :: added)
        | some lower =>
          match addItemToOrder items fuel lower (ordered, added) with
          | none => none
          | some p => some (p.1 ++ [r], r.id :: p.2)

/-- Third constructor loop: `items.forEach(item => addItemToOrder(item))`. -/
def linearizeAux (items : List Item) :
    List Item → List Item × List String → Option (List Item × List String)
  | [], st => some st
  | r :: rest, st =>
    match addItemToOrder items (items.length + 1) r st with
    | none => none
    | some st2 => linearizeAux items rest st2

/-- The engine state: the bottom-to-top `itemsList`. -/
structure Whiteboard where
  itemsList : List Item
deriving DecidableEq

/-- The constructor: uniqueness check, interleaved reference/cycle
validation, then linearization. -/
def wbConstruct (input : List Item) : Except WbError Whiteboard :=
  match checkUnique input with
  | .error e => .error e
  | .ok _ =>
    match validateFrom input input with
    | .error e => .error e
    | .ok _ =>
      match linearizeAux input input ([], []) with
      | none => .error .fuelExhausted
      | some st => .ok ⟨st.1⟩

/-- `items()`: the bottom-to-top sequence (the source returns a fresh array
copy; under value semantics the copy is implicit). -/
def wbItems (wb : Whiteboard) : List Item :=
  wb.itemsList

/-- `top()`: the last element of the sequence, or `undefined`. -/
def wbTop (wb : Whiteboard) : Option Item :=
  wb.itemsList.getLast?

/-- `add(item)`: duplicate-id scan, then the guard
`if (this.top() && this.top().id !== item.lowerId) throw`, then push.
The result pairs the call's outcome (normal return or thrown error) with
the engine state after the call. -/
def wbAdd (wb : Whiteboard) (item : Item) : Except WbError Unit × Whiteboard :=
  if wb.itemsList.any (fun e => e.id == item.id) then
    (.error (.duplicateId item.id), wb)
  else
    match wbTop wb with
    | none => (.ok (), ⟨wb.itemsList ++ [item]⟩)
    | some t =>
      if item.lowerId == some t.id then (.ok (), ⟨wb.itemsList ++ [item]⟩)
      else (.error (.brokenChain item.lowerId), wb)

/-- The `items.map(...)` step of `extract`: each selected id must exist on
the board; the copy spreads the existing record and overrides `id` with a
fresh value and `lowerId` with `undefined`.  `gen` is the id source
(`generateUniqueId`, `Math.random`-based in the source, modelled as an
injected stream consumed left to right) and `c` the next stream index. -/
def copySelection (wb : Whiteboard) (gen : Nat → String) :
    List Item → Nat → Except WbError (List Item × Nat)
  | [], c => .ok ([], c)
  | item :: rest, c =>
    match wb.itemsList.find? (fun e => e.id == item.id) with
    | none => .error (.notFound item.id)
    | some existing =>
      match copySelection wb gen rest (c + 1) with
      | .error e => .error e
      | .ok (out, c2) => .ok ({ existing with id := gen c, lowerId := none } :: out, c2)

/-- The linking loop of `extract` from the second element on:
`extractedItems[i].lowerId = extractedItems[i-1].id`.  The loop reads only
the previous element's `id`, which linking never changes, so the
predecessor may be passed before its own `lowerId` update. -/
def chainUpFrom (prev : Item) : List Item → List Item
  | [] => []
  | y :: rest => { y with lowerId := some prev.id } :: chainUpFrom y rest

/-- The linking loop of `extract`: element `0` keeps `lowerId = none`. -/
def chainUp : List Item → List Item
  | [] => []
  | x :: rest => x :: chainUpFrom x rest

/-- `extract`: copy step then linking loop.  The engine list is never
written; a `NotFoundError` propagates out of the copy step leaving the
state untouched.  Returns the call's outcome, the engine state after the
call and the next generator index. -/
def wbExtract (wb : Whiteboard) (gen : Nat → String) (sel : List Item) (c : Nat) :
    Except WbError (List Item) × Whiteboard × Nat :=
  match copySelection wb gen sel c with
  | .error e => (.error e, wb, c)
  | .ok (out, c2) => (.ok (chainUp out), wb, c2)

/-- Replace a falsy-but-defined `lowerId` (the empty string) by the explicit
absent sentinel; `id` and `data` are untouched. -/
def normalizeLower (r : Item) : Item :=
  match r.lowerId with
  | none => r
  | some s => if s == "" then { r with lowerId := none } else r

/-- Each non-head record's `lowerId` is the id of its predecessor. -/
def chainedB : List Item → Bool
  | a :: b :: rest => (b.lowerId == some a.id) && chainedB (b :: rest)
  | _ => true

/-- The head (bottom) record, when present, has no `lowerId`. -/
def bottomB : List Item → Bool
  | [] => true
  | r :: _ => r.lowerId == none

/-- A duplicate-free, referentially closed, acyclic record set forming a
single chain, presented in its bottom-to-top order.  Ids are required to be
truthy (nonempty) strings, so that the `lowerId` links function as
references under the source's truthiness guards. -/
def IsWbChain (L : List Item) : Prop :=
  (L.map Item.id).Nodup ∧ bottomB L = true ∧ chainedB L = true ∧
    L.all (fun r => !(r.id == "")) = true

instance : DecidablePred IsWbChain := fun _ => by
  unfold IsWbChain; infer_instance

deriving instance DecidableEq for Except

/-! ## Helper lemmas about the constructor's loops -/

theorem checkUniqueAux_ok : ∀ (l : List Item) (seen : List String),
    (l.map Item.id).Nodup → (∀ r ∈ l, seen.contains r.id = false) →
    checkUniqueAux l seen = .ok ()
  | [], _, _, _ => rfl
  | r :: rest, seen, hnd, hseen => by
    have h0 : seen.contains r.id = false := hseen r (by simp)
    have hnd2 := hnd
    simp only [List.map_cons, List.nodup_cons] at hnd2
    unfold checkUniqueAux
    rw [h0]
    simp only [Bool.false_eq_true, if_false]
    exact checkUniqueAux_ok rest (r.id :: seen) hnd2.2 (by
      intro q hq
      have hqid : q.id ≠ r.id := by
        intro he
        exact hnd2.1 (he ▸ List.mem_map_of_mem Item.id hq)
      have hs : seen.contains q.id = false := hseen q (by simp [hq])
      have hsmem : q.id ∉ seen := by simpa using hs
      simp [List.contains_cons, hqid, hsmem])

theorem checkUnique_ok (l : List Item) (hnd : (l.map Item.id).Nodup) :
    checkUnique l = .ok () :=
  checkUniqueAux_ok l [] hnd (by intro r _; rfl)

theorem validateFrom_skip (items : List Item) : ∀ (pre rest : List Item),
    (∀ q ∈ pre, danglingOf items q = none ∧
      checkCycleWalk items (items.length + 1) [] q = .ok ()) →
    validateFrom items (pre ++ rest) = validateFrom items rest
  | [], rest, _ => rfl
  | q :: pre, rest, h => by
    have hq := h q (by simp)
    show validateFrom items (q :: (pre ++ rest)) = validateFrom items rest
    simp only [validateFrom, hq.1, hq.2]
    exact validateFrom_skip items pre rest (fun p hp => h p (by simp [hp]))

theorem validateFrom_ok (items rest : List Item)
    (h : ∀ q ∈ rest, danglingOf items q = none ∧
      checkCycleWalk items (items.length + 1) [] q = .ok ()) :
    validateFrom items rest = .ok () := by
  have := validateFrom_skip items rest [] h
  simpa using this

theorem addItemToOrder_subset (items : List Item) :
    ∀ (fuel : Nat) (r : Item) (st st2 : List Item × List String),
    r ∈ items → (∀ a ∈ st.1, a ∈ items) →
    addItemToOrder items fuel r st = some st2 → ∀ a ∈ st2.1, a ∈ items
  | 0, r, st, st2, _, _, h => by simp [addItemToOrder] at h
  | fuel + 1, r, (o, A), st2, hr, hst, h => by
    unfold addItemToOrder at h
    split at h
    · cases h
      exact hst
    · split at h
      · cases h
        intro a ha
        rcases List.mem_append.1 ha with hL | hR
        · exact hst a hL
        · simp only [List.mem_singleton] at hR
          exact hR ▸ hr
      · rename_i s hs
        split at h
        · cases h
          intro a ha
          rcases List.mem_append.1 ha with hL | hR
          · exact hst a hL
          · simp only [List.mem_singleton] at hR
            exact hR ▸ hr
        · rename_i lower hlow
          split at h
          · cases h
          · rename_i p hp
            cases h
            have hlmem : lower ∈ items := List.mem_of_find?_eq_some hlow
            have hsub := addItemToOrder_subset items fuel lower (o, A) p hlmem hst hp
            intro a ha
            rcases List.mem_append.1 ha with hL | hR
            · exact hsub a hL
            · simp only [List.mem_singleton] at hR
              exact hR ▸ hr

theorem linearizeAux_subset (items : List Item) :
    ∀ (rest : List Item) (st st2 : List Item × List String),
    (∀ x ∈ rest, x ∈ items) → (∀ a ∈ st.1, a ∈ items) →
    linearizeAux items rest st = some st2 → ∀ a ∈ st2.1, a ∈ items
  | [], st, st2, _, hst, h => by
    cases h
    exact hst
  | r :: rest, st, st2, hrest, hst, h => by
    unfold linearizeAux at h
    split at h
    · cases h
    · rename_i stm hstm
      exact linearizeAux_subset items rest stm st2 (fun x hx => hrest x (by simp [hx]))
        (addItemToOrder_subset items (items.length + 1) r st stm
          (hrest r (by simp)) hst hstm) h

/-! ## C1 (code bug): `extract` chains the copies in the caller's selection
order, not in the whiteboard-relative order. -/

/-- C1: on the whiteboard `dog < rabbit < cat < hamster` (the example of the
source's own doc comment), extracting the selection listed as
`[hamster, rabbit]` yields the hamster copy with `lowerId = undefined` (the
bottom of the new chain) and the rabbit copy on top of it — the chain
follows the caller's selection order and contradicts the whiteboard-relative
order (`rabbit` below `hamster`) required by the claim and by the source's
own documentation of `extract`. -/
theorem extract_follows_selection_order :
    wbConstruct [⟨"dog", none, "square"⟩, ⟨"rabbit", some "dog", "triangle"⟩,
      ⟨"cat", some "rabbit", "circle"⟩, ⟨"hamster", some "cat", "arrow"⟩]
      = .ok ⟨[⟨"dog", none, "square"⟩, ⟨"rabbit", some "dog", "triangle"⟩,
        ⟨"cat", some "rabbit", "circle"⟩, ⟨"hamster", some "cat", "arrow"⟩]⟩ ∧
    wbExtract ⟨[⟨"dog", none, "square"⟩, ⟨"rabbit", some "dog", "triangle"⟩,
      ⟨"cat", some "rabbit", "circle"⟩, ⟨"hamster", some "cat", "arrow"⟩]⟩
      (fun n => if n == 0 then "z" else "zz")
      [⟨"hamster", some "cat", "arrow"⟩, ⟨"rabbit", some "dog", "triangle"⟩] 0
      = (.ok [⟨"z", none, "arrow"⟩, ⟨"zz", some "z", "triangle"⟩],
          ⟨[⟨"dog", none, "square"⟩, ⟨"rabbit", some "dog", "triangle"⟩,
            ⟨"cat", some "rabbit", "circle"⟩, ⟨"hamster", some "cat", "arrow"⟩]⟩, 2) := by
  decide

/-! ## C2 (code bug): `add` on an empty engine never checks `lowerId`. -/

/-- C2: on an empty engine, the guard `this.top() && ...` is skipped because
`top()` is `undefined`, so `add` succeeds for any `lowerId` — including the
dangling `some "zzz"`, which the claim (and the specification's empty-engine
rule) says must fail with `BrokenChainError`. -/
theorem add_on_empty_board_skips_chain_check :
    wbAdd ⟨[]⟩ ⟨"x", some "zzz", "d"⟩ = (.ok (), ⟨[⟨"x", some "zzz", "d"⟩]⟩) ∧
    wbAdd ⟨[]⟩ ⟨"x", none, "d"⟩ = (.ok (), ⟨[⟨"x", none, "d"⟩]⟩) := by
  decide

/-! ## C3 (corrected): the reference check and the cycle walk are
interleaved per record, so an earlier cycle preempts a later dangling
reference. -/

/-- C3 counterexample: the input holds a dangling reference (`"c"` points to
the absent `"zzz"`), yet construction fails with `CycleError` for the cycle
`a ↔ b` that is reached first in input order — not with
`DanglingReferenceError` as the claim states. -/
theorem cycle_preempts_dangling :
    wbConstruct [⟨"a", some "b", "x"⟩, ⟨"b", some "a", "y"⟩, ⟨"c", some "zzz", "z"⟩]
      = .error (.cycleDetected "a") ∧
    wbConstruct [⟨"a", some "b", "x"⟩, ⟨"b", some "a", "y"⟩, ⟨"c", some "zzz", "z"⟩]
      ≠ .error (.danglingRef "zzz") := by
  decide

/-- C3 amended: construction checks each record's referential integrity
immediately before that record's cycle walk, in input order; whenever every
record preceding the dangling record passes both its reference check and its
cycle walk, construction fails with `DanglingReferenceError` — even when
later records form a cycle. -/
theorem dangling_reported_when_earlier_records_pass
    (pre post : List Item) (r : Item) (s : String)
    (hnd : ((pre ++ r :: post).map Item.id).Nodup)
    (hpre : ∀ q ∈ pre, danglingOf (pre ++ r :: post) q = none ∧
      checkCycleWalk (pre ++ r :: post) ((pre ++ r :: post).length + 1) [] q = .ok ())
    (hr : danglingOf (pre ++ r :: post) r = some s) :
    wbConstruct (pre ++ r :: post) = .error (.danglingRef s) := by
  have hu : checkUnique (pre ++ r :: post) = .ok () := checkUnique_ok _ hnd
  have hv : validateFrom (pre ++ r :: post) (pre ++ r :: post)
      = .error (.danglingRef s) := by
    rw [validateFrom_skip (pre ++ r :: post) pre (r :: post) hpre]
    unfold validateFrom
    rw [hr]
  unfold wbConstruct
  rw [hu, hv]

/-- C3 witness: a single dangling record with cycle-free context, matching
the repository's own failing test (`lowerId: 'zzz'`). -/
theorem dangling_reported_witness :
    wbConstruct [⟨"a", some "zzz", "x"⟩] = .error (.danglingRef "zzz") :=
  dangling_reported_when_earlier_records_pass [] [] ⟨"a", some "zzz", "x"⟩ "zzz"
    (by decide) (by decide) (by decide)

/-! ## C4 (corrected): construction does not enforce the no-branching
invariant. -/

/-- C4 counterexample: the branching input `a ← b`, `a ← c` has unique ids,
no dangling reference and no cycle, so construction succeeds — producing an
engine holding two distinct records with the same defined `lowerId`,
violating the claimed invariant. -/
theorem branching_input_accepted :
    wbConstruct [⟨"a", none, "p"⟩, ⟨"b", some "a", "q"⟩, ⟨"c", some "a", "r"⟩]
      = .ok ⟨[⟨"a", none, "p"⟩, ⟨"b", some "a", "q"⟩, ⟨"c", some "a", "r"⟩]⟩ ∧
    (⟨"b", some "a", "q"⟩ : Item) ∈
      (Whiteboard.mk [⟨"a", none, "p"⟩, ⟨"b", some "a", "q"⟩, ⟨"c", some "a", "r"⟩]).itemsList ∧
    (⟨"c", some "a", "r"⟩ : Item) ∈
      (Whiteboard.mk [⟨"a", none, "p"⟩, ⟨"b", some "a", "q"⟩, ⟨"c", some "a", "r"⟩]).itemsList ∧
    (⟨"b", some "a", "q"⟩ : Item) ≠ ⟨"c", some "a", "r"⟩ ∧
    (Item.mk "b" (some "a") "q").lowerId = some "a" ∧
    (Item.mk "c" (some "a") "r").lowerId = some "a" := by
  decide

/-- C4 amended: every engine that construction produces without error has
passed exactly the id-uniqueness check and the interleaved
reference/cycle validation, and holds only records taken from the input;
the no-branching property is not among the enforced checks (two distinct
records of a produced engine may share the same defined `lowerId`). -/
theorem construct_enforces_only_its_checks (input : List Item) (wb : Whiteboard)
    (h : wbConstruct input = .ok wb) :
    checkUnique input = .ok () ∧ validateFrom input input = .ok () ∧
      ∀ a ∈ wb.itemsList, a ∈ input := by
  unfold wbConstruct at h
  split at h
  · cases h
  · rename_i u hu
    split at h
    · cases h
    · rename_i v hv
      split at h
      · cases h
      · rename_i st hst
        cases h
        refine ⟨by cases u; exact hu, by cases v; exact hv, ?_⟩
        exact linearizeAux_subset input input ([], []) st (fun x hx => hx)
          (by intro a ha; cases ha) hst

/-- C4 amended, witness: the branching input itself. -/
theorem construct_enforces_only_its_checks_witness :
    checkUnique [⟨"a", none, "p"⟩, ⟨"b", some "a", "q"⟩, ⟨"c", some "a", "r"⟩] = .ok () ∧
    validateFrom [⟨"a", none, "p"⟩, ⟨"b", some "a", "q"⟩, ⟨"c", some "a", "r"⟩]
      [⟨"a", none, "p"⟩, ⟨"b", some "a", "q"⟩, ⟨"c", some "a", "r"⟩] = .ok () ∧
    ∀ a ∈ (Whiteboard.mk [⟨"a", none, "p"⟩, ⟨"b", some "a", "q"⟩,
      ⟨"c", some "a", "r"⟩]).itemsList,
      a ∈ [⟨"a", none, "p"⟩, ⟨"b", some "a", "q"⟩, ⟨"c", some "a", "r"⟩] :=
  construct_enforces_only_its_checks
    [⟨"a", none, "p"⟩, ⟨"b", some "a", "q"⟩, ⟨"c", some "a", "r"⟩]
    ⟨[⟨"a", none, "p"⟩, ⟨"b", some "a", "q"⟩, ⟨"c", some "a", "r"⟩]⟩ (by decide)

/-! ## C6 (confirmed): a successful `add` appends and becomes the top. -/

/-- C6: whenever `add(x)` succeeds, the new sequence is the old sequence
with `x` appended at the end — no pre-existing element is changed, removed
or reordered — and `top()` is `x`. -/
theorem add_appends_to_top (wb : Whiteboard) (x : Item) (wb2 : Whiteboard)
    (h : wbAdd wb x = (.ok (), wb2)) :
    wbItems wb2 = wbItems wb ++ [x] ∧ wbTop wb2 = some x := by
  unfold wbAdd at h
  split at h
  · cases h
  · split at h
    · cases h
      exact ⟨rfl, List.getLast?_concat _⟩
    · split at h
      · cases h
        exact ⟨rfl, List.getLast?_concat _⟩
      · cases h

/-- C6 witness. -/
theorem add_appends_to_top_witness :
    wbItems ⟨[⟨"a", none, "d"⟩, ⟨"b", some "a", "e"⟩]⟩
      = wbItems ⟨[⟨"a", none, "d"⟩]⟩ ++ [⟨"b", some "a", "e"⟩] ∧
    wbTop ⟨[⟨"a", none, "d"⟩, ⟨"b", some "a", "e"⟩]⟩ = some ⟨"b", some "a", "e"⟩ :=
  add_appends_to_top ⟨[⟨"a", none, "d"⟩]⟩ ⟨"b", some "a", "e"⟩
    ⟨[⟨"a", none, "d"⟩, ⟨"b", some "a", "e"⟩]⟩ (by decide)

/-! ## C9 (confirmed): a failing `add` leaves the engine unchanged. -/

/-- C9: whenever `add(x)` fails — duplicate id or broken chain — the engine
state after the call is exactly the state before it: both throws happen
before the push. -/
theorem add_failure_leaves_board (wb : Whiteboard) (x : Item) (e : WbError)
    (wb2 : Whiteboard) (h : wbAdd wb x = (.error e, wb2)) : wb2 = wb := by
  unfold wbAdd at h
  split at h
  · cases h
    rfl
  · split at h
    · cases h
    · split at h
      · cases h
      · cases h
        rfl

/-- C9 witness: adding a duplicate id fails and leaves the board as it was. -/
theorem add_failure_leaves_board_witness :
    (Whiteboard.mk [⟨"a", none, "d"⟩]) = ⟨[⟨"a", none, "d"⟩]⟩ :=
  add_failure_leaves_board ⟨[⟨"a", none, "d"⟩]⟩ ⟨"a", some "a", "e"⟩
    (.duplicateId "a") ⟨[⟨"a", none, "d"⟩]⟩ (by decide)

/-! ## C7 (confirmed): `extract` never writes the engine state and reads the
selection only through its `id` fields. -/

theorem copySelection_depends_only_on_ids (wb : Whiteboard) (gen : Nat → String) :
    ∀ (sel sel2 : List Item) (c : Nat), sel.map Item.id = sel2.map Item.id →
    copySelection wb gen sel c = copySelection wb gen sel2 c
  | [], [], _, _ => rfl
  | [], _ :: _, _, h => by simp at h
  | _ :: _, [], _, h => by simp at h
  | a :: sel, b :: sel2, c, h => by
    simp only [List.map_cons, List.cons.injEq] at h
    unfold copySelection
    rw [h.1, copySelection_depends_only_on_ids wb gen sel sel2 (c + 1) h.2]

/-- C7: a call to `extract` leaves the engine's ordered sequence untouched
(no statement of the source writes `itemsList`; a `NotFoundError` aborts
before the push-free copy loop completes), and the call reads the
caller-supplied records only through their `id` fields — two selections
with equal id sequences produce identical outcomes — so the caller's
records (their `id`, `lowerId` and `data`) are never written. -/
theorem extract_keeps_state_and_reads_only_ids (wb : Whiteboard) (gen : Nat → String)
    (sel sel2 : List Item) (c : Nat) (h : sel.map Item.id = sel2.map Item.id) :
    wbExtract wb gen sel c = wbExtract wb gen sel2 c ∧
      (wbExtract wb gen sel c).2.1 = wb := by
  constructor
  · unfold wbExtract
    rw [copySelection_depends_only_on_ids wb gen sel sel2 c h]
  · unfold wbExtract
    split <;> rfl

/-- C7 witness: same ids, different `lowerId`/`data` in the selection. -/
theorem extract_keeps_state_witness :
    wbExtract ⟨[⟨"dog", none, "d"⟩]⟩ (fun _ => "z") [⟨"dog", none, "x"⟩] 0
      = wbExtract ⟨[⟨"dog", none, "d"⟩]⟩ (fun _ => "z") [⟨"dog", some "q", "y"⟩] 0 ∧
    (wbExtract ⟨[⟨"dog", none, "d"⟩]⟩ (fun _ => "z") [⟨"dog", none, "x"⟩] 0).2.1
      = ⟨[⟨"dog", none, "d"⟩]⟩ :=
  extract_keeps_state_and_reads_only_ids ⟨[⟨"dog", none, "d"⟩]⟩ (fun _ => "z")
    [⟨"dog", none, "x"⟩] [⟨"dog", some "q", "y"⟩] 0 (by decide)

/-! ## C8 (confirmed): the extracted records carry fresh, pairwise-distinct
ids.  `generateUniqueId` draws from `Math.random`; it is modelled as the
injected stream `gen`, and the claim holds exactly under the stream's
collision-freedom contract stated by the specification (§5). -/

theorem copySelection_ids (wb : Whiteboard) (gen : Nat → String) :
    ∀ (sel : List Item) (c : Nat) (out : List Item) (c2 : Nat),
    copySelection wb gen sel c = .ok (out, c2) →
    out.map Item.id = (List.range sel.length).map (fun i => gen (c + i)) ∧
      c2 = c + sel.length ∧ out.length = sel.length
  | [], c, out, c2, h => by
    cases h
    simp
  | item :: sel, c, out, c2, h => by
    unfold copySelection at h
    split at h
    · cases h
    · rename_i existing hex
      split at h
      · cases h
      · rename_i out1 c1 hp
        cases h
        obtain ⟨hids, hc, hlen⟩ := copySelection_ids wb gen sel (c + 1) out1 c2 hp
        refine ⟨?_, by simp only [List.length_cons]; omega, by simp [hlen]⟩
        simp only [List.map_cons, List.length_cons, List.range_succ_eq_map,
          List.map_map]
        refine List.cons_eq_cons.2 ⟨by simp, ?_⟩
        rw [hids]
        refine List.map_congr_left ?_
        intro i _
        simp only [Function.comp_apply]
        exact congrArg gen (by omega)

theorem chainUpFrom_map_id : ∀ (prev : Item) (l : List Item),
    (chainUpFrom prev l).map Item.id = l.map Item.id
  | _, [] => rfl
  | prev, y :: rest => by
    simp only [chainUpFrom, List.map_cons]
    exact congrArg (List.cons y.id) (chainUpFrom_map_id y rest)

theorem chainUp_map_id (l : List Item) : (chainUp l).map Item.id = l.map Item.id := by
  cases l with
  | nil => rfl
  | cons x rest =>
    simp only [chainUp, List.map_cons]
    exact congrArg (List.cons x.id) (chainUpFrom_map_id x rest)

theorem chainUp_length (l : List Item) : (chainUp l).length = l.length := by
  have := congrArg List.length (chainUp_map_id l)
  simpa using this

/-- C8: when `extract` succeeds, each returned record carries one freshly
generated id (`out.length = sel.length`), and — under the generator's
collision-freedom contract for the consumed stream positions — those ids
are pairwise distinct and disjoint from every id currently on the engine. -/
theorem extract_ids_fresh_and_distinct (wb : Whiteboard) (gen : Nat → String)
    (sel : List Item) (c : Nat) (out : List Item) (wb2 : Whiteboard) (c2 : Nat)
    (hinj : ∀ i < sel.length, ∀ j < sel.length, gen (c + i) = gen (c + j) → i = j)
    (hfresh : ∀ i < sel.length, ∀ r ∈ wb.itemsList, r.id ≠ gen (c + i))
    (h : wbExtract wb gen sel c = (.ok out, wb2, c2)) :
    (out.map Item.id).Nodup ∧ (∀ x ∈ out, ∀ r ∈ wb.itemsList, x.id ≠ r.id) ∧
      out.length = sel.length := by
  unfold wbExtract at h
  split at h
  · cases h
  · rename_i cp c1 hp
    cases h
    obtain ⟨hids, _, hlen⟩ := copySelection_ids wb gen sel c cp c2 hp
    have houtids : (chainUp cp).map Item.id
        = (List.range sel.length).map (fun i => gen (c + i)) := by
      rw [chainUp_map_id, hids]
    refine ⟨?_, ?_, ?_⟩
    · rw [houtids]
      refine (List.nodup_range sel.length).map_on ?_
      intro i hi j hj hg
      exact hinj i (List.mem_range.1 hi) j (List.mem_range.1 hj) hg
    · intro x hx r hr
      have hxid : x.id ∈ (chainUp cp).map Item.id := List.mem_map_of_mem Item.id hx
      rw [houtids] at hxid
      obtain ⟨i, hi, hgi⟩ := List.mem_map.1 hxid
      intro he
      exact hfresh i (List.mem_range.1 hi) r hr (he ▸ hgi.symm)
    · exact (chainUp_length cp).trans hlen

/-- C8 witness: a one-element selection with a concrete injected stream. -/
theorem extract_ids_fresh_witness :
    (([Item.mk "z" none "d"]).map Item.id).Nodup ∧
    (∀ x ∈ [Item.mk "z" none "d"], ∀ r ∈ (Whiteboard.mk [⟨"dog", none, "d"⟩]).itemsList,
      x.id ≠ r.id) ∧
    ([Item.mk "z" none "d"]).length = ([Item.mk "dog" none "d"]).length :=
  extract_ids_fresh_and_distinct ⟨[⟨"dog", none, "d"⟩]⟩ (fun _ => "z")
    [⟨"dog", none, "d"⟩] 0 [⟨"z", none, "d"⟩] ⟨[⟨"dog", none, "d"⟩]⟩ 1
    (by decide) (by decide) (by decide)

/-! ## C10 (confirmed): a falsy-but-defined `lowerId` behaves exactly like
an absent one throughout construction. -/

theorem normalizeLower_id (r : Item) : (normalizeLower r).id = r.id := by
  unfold normalizeLower
  split
  · rfl
  · split <;> rfl

theorem normalizeLower_lowerRef (r : Item) :
    lowerRef (normalizeLower r) = lowerRef r := by
  unfold normalizeLower
  split
  · rfl
  · rename_i s heq
    split
    · rename_i he
      simp [lowerRef, heq, he]
    · rfl

theorem hasId_map_normalize (items : List Item) (s : String) :
    hasId (items.map normalizeLower) s = hasId items s := by
  unfold hasId
  rw [List.any_map]
  congr 1
  funext r
  simp [Function.comp, normalizeLower_id]

theorem getById_map_normalize (items : List Item) (s : String) :
    getById (items.map normalizeLower) s = (getById items s).map normalizeLower := by
  unfold getById
  rw [List.find?_map]
  congr 2
  funext r
  simp [Function.comp, normalizeLower_id]

theorem checkUniqueAux_map_normalize : ∀ (l : List Item) (seen : List String),
    checkUniqueAux (l.map normalizeLower) seen = checkUniqueAux l seen
  | [], _ => rfl
  | r :: rest, seen => by
    simp only [List.map_cons]
    unfold checkUniqueAux
    rw [normalizeLower_id]
    split
    · rfl
    · exact checkUniqueAux_map_normalize rest (r.id :: seen)

theorem danglingOf_map_normalize (items : List Item) (r : Item) :
    danglingOf (items.map normalizeLower) (normalizeLower r) = danglingOf items r := by
  unfold danglingOf
  rw [normalizeLower_lowerRef]
  split
  · rfl
  · rw [hasId_map_normalize]

theorem checkCycleWalk_map_normalize (items : List Item) :
    ∀ (fuel : Nat) (visited : List String) (r : Item),
    checkCycleWalk (items.map normalizeLower) fuel visited (normalizeLower r)
      = checkCycleWalk items fuel visited r
  | 0, _, _ => rfl
  | fuel + 1, visited, r => by
    unfold checkCycleWalk
    simp only [normalizeLower_id, normalizeLower_lowerRef]
    split
    · rfl
    · split
      · rfl
      · rename_i s _
        rw [getById_map_normalize]
        cases hg : getById items s with
        | none => rfl
        | some lower =>
          exact checkCycleWalk_map_normalize items fuel (r.id :: visited) lower

theorem validateFrom_map_normalize (items : List Item) : ∀ (rest : List Item),
    validateFrom (items.map normalizeLower) (rest.map normalizeLower)
      = validateFrom items rest
  | [] => rfl
  | r :: rest => by
    simp only [List.map_cons]
    unfold validateFrom
    rw [danglingOf_map_normalize]
    split
    · rfl
    · rw [List.length_map, checkCycleWalk_map_normalize]
      split
      · rfl
      · exact validateFrom_map_normalize items rest

theorem addItemToOrder_map_normalize (items : List Item) :
    ∀ (fuel : Nat) (r : Item) (o : List Item) (A : List String),
    addItemToOrder (items.map normalizeLower) fuel (normalizeLower r)
        (o.map normalizeLower, A)
      = Option.map (fun p => (p.1.map normalizeLower, p.2))
          (addItemToOrder items fuel r (o, A))
  | 0, _, _, _ => rfl
  | fuel + 1, r, o, A => by
    unfold addItemToOrder
    simp only [normalizeLower_id, normalizeLower_lowerRef]
    split
    · rfl
    · split
      · simp [List.map_append, normalizeLower_id]
      · rename_i s _
        rw [getById_map_normalize]
        cases hg : getById items s with
        | none => simp [List.map_append, normalizeLower_id]
        | some lower =>
          have hrec := addItemToOrder_map_normalize items fuel lower o A
          simp only [Option.map_some']
          rw [hrec]
          cases addItemToOrder items fuel lower (o, A) with
          | none => rfl
          | some p => simp [List.map_append, normalizeLower_id]

theorem linearizeAux_map_normalize (items : List Item) :
    ∀ (rest : List Item) (o : List Item) (A : List String),
    linearizeAux (items.map normalizeLower) (rest.map normalizeLower)
        (o.map normalizeLower, A)
      = Option.map (fun p => (p.1.map normalizeLower, p.2))
          (linearizeAux items rest (o, A))
  | [], _, _ => rfl
  | r :: rest, o, A => by
    simp only [List.map_cons]
    unfold linearizeAux
    rw [List.length_map, addItemToOrder_map_normalize]
    cases addItemToOrder items (items.length + 1) r (o, A) with
    | none => rfl
    | some st2 =>
      obtain ⟨o2, A2⟩ := st2
      simpa using linearizeAux_map_normalize items rest o2 A2

/-- C10: construction treats a falsy-but-defined `lowerId` (for example the
empty string) exactly as an absent one: replacing every such `lowerId` by
the explicit absent sentinel changes neither the outcome (errors included)
nor the produced order — only the stored `lowerId` field differs.  In
particular a record with `lowerId = some ""` raises no
`DanglingReferenceError` although no record with id `""` exists, its chain
is not followed during cycle detection, and it is placed as a bottom record
during linearization (concrete instance in the second conjunct). -/
theorem falsy_lowerId_treated_as_absent :
    (∀ input : List Item,
      wbConstruct (input.map normalizeLower)
        = Except.map (fun wb => Whiteboard.mk (wb.itemsList.map normalizeLower))
            (wbConstruct input)) ∧
    wbConstruct [⟨"a", some "", "x"⟩] = .ok ⟨[⟨"a", some "", "x"⟩]⟩ := by
  constructor
  · intro input
    unfold wbConstruct
    rw [show checkUnique (input.map normalizeLower) = checkUnique input from
      checkUniqueAux_map_normalize input []]
    cases checkUnique input with
    | error e => rfl
    | ok u =>
      rw [validateFrom_map_normalize input input]
      cases validateFrom input input with
      | error e => rfl
      | ok v =>
        have hlin := linearizeAux_map_normalize input input [] []
        simp only [List.map_nil] at hlin
        rw [hlin]
        cases linearizeAux input input ([], []) with
        | none => rfl
        | some st => rfl
  · decide

/-! ## C5 (confirmed): helper lemmas about chains and indexed access. -/

theorem chainedB_get : ∀ (L : List Item), chainedB L = true →
    ∀ (k : Nat) (hk : k + 1 < L.length),
    (L.get ⟨k + 1, hk⟩).lowerId = some ((L.get ⟨k, Nat.lt_of_succ_lt hk⟩).id)
  | [], _, _, hk => by simp at hk
  | [_], _, _, hk => by simp at hk
  | a :: b :: rest, h, 0, hk => by
    simp only [chainedB, Bool.and_eq_true, beq_iff_eq] at h
    exact h.1
  | a :: b :: rest, h, k + 1, hk => by
    simp only [chainedB, Bool.and_eq_true] at h
    have := chainedB_get (b :: rest) h.2 k (by simpa using hk)
    simpa using this

theorem bottomB_get (L : List Item) (h : bottomB L = true) (h0 : 0 < L.length) :
    (L.get ⟨0, h0⟩).lowerId = none := by
  cases L with
  | nil => simp at h0
  | cons r rest => simpa [bottomB] using h

theorem id_inj : ∀ (L : List Item), (L.map Item.id).Nodup →
    ∀ a ∈ L, ∀ b ∈ L, a.id = b.id → a = b
  | [], _, a, ha, _, _, _ => absurd ha (List.not_mem_nil a)
  | r :: rest, hnd, a, ha, b, hb, hab => by
    simp only [List.map_cons, List.nodup_cons] at hnd
    rcases List.mem_cons.1 ha with rfl | ha2
    · rcases List.mem_cons.1 hb with rfl | hb2
      · rfl
      · exact absurd (by rw [hab]; exact List.mem_map_of_mem Item.id hb2) hnd.1
    · rcases List.mem_cons.1 hb with rfl | hb2
      · exact absurd (by rw [← hab]; exact List.mem_map_of_mem Item.id ha2) hnd.1
      · exact id_inj rest hnd.2 a ha2 b hb2 hab

theorem getById_self (input : List Item) (hnd : (input.map Item.id).Nodup)
    (x : Item) (hx : x ∈ input) : getById input x.id = some x := by
  unfold getById
  cases hf : input.find? (fun e => e.id == x.id) with
  | none =>
    rw [List.find?_eq_none] at hf
    exact absurd (by simp : (x.id == x.id) = true) (hf x hx)
  | some y =>
    have hy := List.find?_some hf
    have hymem := List.mem_of_find?_eq_some hf
    rw [id_inj input hnd y hymem x hx (by simpa using hy)]

theorem get_id_ne (L : List Item) (hnd : (L.map Item.id).Nodup)
    (i k : Nat) (hi : i < L.length) (hk : k < L.length) (hik : i ≠ k) :
    (L.get ⟨i, hi⟩).id ≠ (L.get ⟨k, hk⟩).id := by
  intro he
  have heq : L.get ⟨i, hi⟩ = L.get ⟨k, hk⟩ :=
    id_inj L hnd _ (L.get_mem i hi) _ (L.get_mem k hk) he
  have hfin := ((List.Nodup.of_map Item.id hnd).get_inj_iff).1 heq
  exact hik (by simpa using congrArg Fin.val hfin)

theorem get_id_mem_take_iff (L : List Item) (hnd : (L.map Item.id).Nodup)
    (k m : Nat) (hk : k < L.length) (hm : m ≤ L.length) :
    ((L.get ⟨k, hk⟩).id ∈ (L.take m).map Item.id) ↔ k < m := by
  constructor
  · intro hmem
    obtain ⟨b, hbmem, hbid⟩ := List.mem_map.1 hmem
    obtain ⟨⟨j, hj⟩, hgj⟩ := List.mem_iff_get.1 hbmem
    have hjm : j < m := by
      have := hj
      simp only [List.length_take] at this
      omega
    have hjL : j < L.length := by
      have := hj
      simp only [List.length_take] at this
      omega
    have hgetj : L.get ⟨j, hjL⟩ = b := by
      rw [← hgj]
      exact List.get_take L hjL hjm
    have hrecord : L.get ⟨j, hjL⟩ = L.get ⟨k, hk⟩ :=
      id_inj L hnd _ (L.get_mem j hjL) _ (L.get_mem k hk) (by rw [hgetj, hbid])
    have hfin := ((List.Nodup.of_map Item.id hnd).get_inj_iff).1 hrecord
    have : j = k := by simpa using congrArg Fin.val hfin
    omega
  · intro hkm
    have hklen : k < (L.take m).length := by
      simp only [List.length_take]
      omega
    refine List.mem_map_of_mem Item.id ?_
    exact List.mem_iff_get.2 ⟨⟨k, hklen⟩, (List.get_take L hk hkm).symm⟩

theorem take_push (L : List Item) (m : Nat) (hm : m < L.length) :
    L.take m ++ [L.get ⟨m, hm⟩] = L.take (m + 1) := by
  rw [List.take_succ, List.getElem?_eq_getElem hm]
  rfl

theorem addOrder_chain (L input : List Item) (hchain : IsWbChain L)
    (hperm : input.Perm L) :
    ∀ (k : Nat), ∀ (hk : k < L.length), ∀ (fuel : Nat), k < fuel →
    ∀ (m : Nat), m ≤ L.length → ∀ (A : List String),
    (∀ s, A.contains s = true ↔ s ∈ (L.take m).map Item.id) →
    ∃ A2, addItemToOrder input fuel (L.get ⟨k, hk⟩) (L.take m, A)
        = some (L.take (max (k + 1) m), A2) ∧
      ∀ s, A2.contains s = true ↔ s ∈ (L.take (max (k + 1) m)).map Item.id := by
  obtain ⟨hnd, hbot, hch, hidsne⟩ := hchain
  intro k
  induction k with
  | zero =>
    intro hk fuel hfuel m hm A hA
    obtain ⟨f, rfl⟩ : ∃ f, fuel = f + 1 := ⟨fuel - 1, by omega⟩
    by_cases h0m : 0 < m
    · have hcon : A.contains (L.get ⟨0, hk⟩).id = true :=
        (hA _).2 ((get_id_mem_take_iff L hnd 0 m hk hm).2 h0m)
      have hmax : max (0 + 1) m = m := by omega
      refine ⟨A, ?_, by rw [hmax]; exact hA⟩
      rw [hmax]
      simp only [addItemToOrder, hcon, if_true]
    · have hm0 : m = 0 := by omega
      subst hm0
      have hcon : A.contains (L.get ⟨0, hk⟩).id = false := by
        cases hb : A.contains (L.get ⟨0, hk⟩).id
        · rfl
        · have := (hA _).1 hb
          simp at this
      have hlow : lowerRef (L.get ⟨0, hk⟩) = none := by
        unfold lowerRef
        rw [bottomB_get L hbot hk]
      refine ⟨(L.get ⟨0, hk⟩).id :: A, ?_, ?_⟩
      · simp only [addItemToOrder, hcon, Bool.false_eq_true, if_false, hlow]
        rw [show max (0 + 1) 0 = 1 from by omega, ← take_push L 0 hk]
      · intro s
        rw [show max (0 + 1) 0 = 1 from by omega, ← take_push L 0 hk]
        simp only [List.contains_cons, Bool.or_eq_true, beq_iff_eq, hA s,
          List.map_append, List.map_cons, List.map_nil, List.mem_append,
          List.mem_singleton, List.take_zero, List.not_mem_nil, or_false,
          false_or]
  | succ j ih =>
    intro hk fuel hfuel m hm A hA
    obtain ⟨f, rfl⟩ : ∃ f, fuel = f + 1 := ⟨fuel - 1, by omega⟩
    by_cases hkm : j + 1 < m
    · have hcon : A.contains (L.get ⟨j + 1, hk⟩).id = true :=
        (hA _).2 ((get_id_mem_take_iff L hnd (j + 1) m hk hm).2 hkm)
      have hmax : max (j + 1 + 1) m = m := by omega
      refine ⟨A, ?_, by rw [hmax]; exact hA⟩
      rw [hmax]
      simp only [addItemToOrder, hcon, if_true]
    · have hcon : A.contains (L.get ⟨j + 1, hk⟩).id = false := by
        cases hb : A.contains (L.get ⟨j + 1, hk⟩).id
        · rfl
        · have := (get_id_mem_take_iff L hnd (j + 1) m hk hm).1 ((hA _).1 hb)
          omega
      have hjk : j < L.length := Nat.lt_of_succ_lt hk
      have hlowid : (L.get ⟨j + 1, hk⟩).lowerId = some ((L.get ⟨j, hjk⟩).id) :=
        chainedB_get L hch j hk
      have hidne : ¬ L[j].id = "" := by
        have := List.all_eq_true.1 hidsne _ (L.get_mem j hjk)
        simpa using this
      have hlow : lowerRef (L.get ⟨j + 1, hk⟩) = some ((L.get ⟨j, hjk⟩).id) := by
        unfold lowerRef
        rw [hlowid]
        simp [hidne]
      have hndin : (input.map Item.id).Nodup := (hperm.map Item.id).nodup_iff.2 hnd
      have hget : getById input ((L.get ⟨j, hjk⟩).id) = some (L.get ⟨j, hjk⟩) :=
        getById_self input hndin _ (hperm.mem_iff.2 (L.get_mem j hjk))
      obtain ⟨A2, heq, hA2⟩ := ih hjk f (by omega) m (by omega) A hA
      have hmax1 : max (j + 1) m = j + 1 := by omega
      rw [hmax1] at heq hA2
      refine ⟨(L.get ⟨j + 1, hk⟩).id :: A2, ?_, ?_⟩
      · simp only [addItemToOrder, hcon, Bool.false_eq_true, if_false, hlow, hget, heq]
        rw [show max (j + 1 + 1) m = j + 1 + 1 from by omega, ← take_push L (j + 1) hk]
      · intro s
        rw [show max (j + 1 + 1) m = j + 1 + 1 from by omega, ← take_push L (j + 1) hk]
        simp only [List.contains_cons, Bool.or_eq_true, beq_iff_eq, hA2 s,
          List.map_append, List.map_cons, List.map_nil, List.mem_append,
          List.mem_singleton]
        exact or_comm

theorem walk_chain (L input : List Item) (hchain : IsWbChain L)
    (hperm : input.Perm L) :
    ∀ (k : Nat), ∀ (hk : k < L.length), ∀ (fuel : Nat), k < fuel →
    ∀ (visited : List String),
    (∀ (j : Nat), j ≤ k → ∀ (hj : j < L.length),
      visited.contains ((L.get ⟨j, hj⟩).id) = false) →
    checkCycleWalk input fuel visited (L.get ⟨k, hk⟩) = .ok () := by
  obtain ⟨hnd, hbot, hch, hidsne⟩ := hchain
  intro k
  induction k with
  | zero =>
    intro hk fuel hfuel visited hvis
    obtain ⟨f, rfl⟩ : ∃ f, fuel = f + 1 := ⟨fuel - 1, by omega⟩
    have hcon := hvis 0 (le_refl 0) hk
    have hlow : lowerRef (L.get ⟨0, hk⟩) = none := by
      unfold lowerRef
      rw [bottomB_get L hbot hk]
    simp only [checkCycleWalk, hcon, Bool.false_eq_true, if_false, hlow]
  | succ j ih =>
    intro hk fuel hfuel visited hvis
    obtain ⟨f, rfl⟩ : ∃ f, fuel = f + 1 := ⟨fuel - 1, by omega⟩
    have hcon := hvis (j + 1) (le_refl (j + 1)) hk
    have hjk : j < L.length := Nat.lt_of_succ_lt hk
    have hlowid : (L.get ⟨j + 1, hk⟩).lowerId = some ((L.get ⟨j, hjk⟩).id) :=
      chainedB_get L hch j hk
    have hidne : ¬ L[j].id = "" := by
      have := List.all_eq_true.1 hidsne _ (L.get_mem j hjk)
      simpa using this
    have hlow : lowerRef (L.get ⟨j + 1, hk⟩) = some ((L.get ⟨j, hjk⟩).id) := by
      unfold lowerRef
      rw [hlowid]
      simp [hidne]
    have hndin : (input.map Item.id).Nodup := (hperm.map Item.id).nodup_iff.2 hnd
    have hget : getById input ((L.get ⟨j, hjk⟩).id) = some (L.get ⟨j, hjk⟩) :=
      getById_self input hndin _ (hperm.mem_iff.2 (L.get_mem j hjk))
    have hrec := ih hjk f (by omega) ((L.get ⟨j + 1, hk⟩).id :: visited) (by
      intro i hi hiL
      have hne : ¬ L[i].id = L[j + 1].id :=
        get_id_ne L hnd i (j + 1) hiL hk (by omega)
      have hv2 : L[i].id ∉ visited := by simpa using hvis i (by omega) hiL
      simp [List.contains_cons, hne, hv2])
    simp only [checkCycleWalk, hcon, Bool.false_eq_true, if_false, hlow, hget]
    exact hrec

theorem linearize_chain (L input : List Item) (hchain : IsWbChain L)
    (hperm : input.Perm L) :
    ∀ (rest : List Item), (∀ r ∈ rest, r ∈ L) →
    ∀ (m : Nat), m ≤ L.length → ∀ (A : List String),
    (∀ s, A.contains s = true ↔ s ∈ (L.take m).map Item.id) →
    ∃ M A2, m ≤ M ∧ M ≤ L.length ∧
      (∀ (k : Nat) (hk2 : k < L.length), L.get ⟨k, hk2⟩ ∈ rest → k < M) ∧
      linearizeAux input rest (L.take m, A) = some (L.take M, A2) ∧
      ∀ s, A2.contains s = true ↔ s ∈ (L.take M).map Item.id
  | [], _, m, hm, A, hA =>
    ⟨m, A, le_refl m, hm, fun _ _ hmem => absurd hmem (List.not_mem_nil _), rfl, hA⟩
  | r :: rest, hrest, m, hm, A, hA => by
    have hrL : r ∈ L := hrest r (by simp)
    obtain ⟨⟨k, hk⟩, hgk⟩ := List.mem_iff_get.1 hrL
    have hlen : input.length = L.length := hperm.length_eq
    obtain ⟨A2, heq, hA2⟩ := addOrder_chain L input
      ⟨hchain.1, hchain.2.1, hchain.2.2.1, hchain.2.2.2⟩ hperm k hk
      (input.length + 1) (by omega) m hm A hA
    have hm2 : max (k + 1) m ≤ L.length := by omega
    obtain ⟨M, A3, hmM, hML, hcov, hlin, hA3⟩ :=
      linearize_chain L input hchain hperm rest
        (fun q hq => hrest q (by simp [hq])) (max (k + 1) m) hm2 A2 hA2
    refine ⟨M, A3, by omega, hML, ?_, ?_, hA3⟩
    · intro k2 hk2 hmem
      rcases List.mem_cons.1 hmem with he | hmem2
      · have hNodup : L.Nodup := List.Nodup.of_map Item.id hchain.1
        have hfin : (⟨k2, hk2⟩ : Fin L.length) = ⟨k, hk⟩ := by
          refine (hNodup.get_inj_iff).1 ?_
          rw [hgk]
          exact he
        have hk2k : k2 = k := by simpa using congrArg Fin.val hfin
        omega
      · exact hcov k2 hk2 hmem2
    · rw [hgk] at heq
      unfold linearizeAux
      rw [heq]
      exact hlin

/-- C5: for every duplicate-free, referentially closed, acyclic record set
forming a single chain `L` (bottom to top), construction from any
permutation of `L` succeeds, `items()` is exactly `L` — the unique
bottom-to-top order implied by following `lowerId` links from the bottom —
and `top()` is the last element of `items()`. -/
theorem construct_chain_round_trip (input L : List Item)
    (hchain : IsWbChain L) (hperm : input.Perm L) :
    ∃ wb, wbConstruct input = .ok wb ∧ wbItems wb = L ∧
      wbTop wb = (wbItems wb).getLast? := by
  have hnd : (L.map Item.id).Nodup := hchain.1
  have hndin : (input.map Item.id).Nodup := (hperm.map Item.id).nodup_iff.2 hnd
  have hlen : input.length = L.length := hperm.length_eq
  have hu : checkUnique input = .ok () := checkUnique_ok input hndin
  have hv : validateFrom input input = .ok () := by
    refine validateFrom_ok input input ?_
    intro q hq
    obtain ⟨⟨k, hk⟩, hgk⟩ := List.mem_iff_get.1 (hperm.mem_iff.1 hq)
    subst hgk
    constructor
    · cases k with
      | zero =>
        have hlow : lowerRef (L.get ⟨0, hk⟩) = none := by
          unfold lowerRef
          rw [bottomB_get L hchain.2.1 hk]
        unfold danglingOf
        rw [hlow]
      | succ j =>
        have hjk : j < L.length := Nat.lt_of_succ_lt hk
        have hlowid : (L.get ⟨j + 1, hk⟩).lowerId = some ((L.get ⟨j, hjk⟩).id) :=
          chainedB_get L hchain.2.2.1 j hk
        have hidne : ¬ L[j].id = "" := by
          have := List.all_eq_true.1 hchain.2.2.2 _ (L.get_mem j hjk)
          simpa using this
        have hlow : lowerRef (L.get ⟨j + 1, hk⟩) = some ((L.get ⟨j, hjk⟩).id) := by
          unfold lowerRef
          rw [hlowid]
          simp [hidne]
        have hhas : hasId input L[j].id = true := by
          unfold hasId
          refine List.any_eq_true.2 ⟨L.get ⟨j, hjk⟩, hperm.mem_iff.2 (L.get_mem j hjk), by simp⟩
        unfold danglingOf
        rw [hlow]
        simp [hhas]
    · refine walk_chain L input hchain hperm k hk (input.length + 1) (by omega) [] ?_
      intro i _ hiL
      rfl
  obtain ⟨M, A2, _, hML, hcov, hlin, _⟩ :=
    linearize_chain L input hchain hperm input (fun r hr => hperm.mem_iff.1 hr)
      0 (Nat.zero_le _) [] (by intro s; simp)
  have hMfull : M = L.length := by
    have hge : L.length ≤ M := by
      by_contra hcon
      push_neg at hcon
      exact absurd (hcov M hcon (hperm.mem_iff.2 (L.get_mem M hcon))) (lt_irrefl M)
    omega
  subst hMfull
  rw [List.take_length] at hlin
  refine ⟨⟨L⟩, ?_, rfl, ?_⟩
  · unfold wbConstruct
    rw [hu, hv]
    have hlin0 : linearizeAux input input ([], []) = some (L, A2) := hlin
    rw [hlin0]
  · rfl

/-- C5 witness: the unordered input of the repository's tests, a permutation
of the chain `dog < rabbit < cat < hamster`. -/
theorem construct_chain_round_trip_witness :
    ∃ wb, wbConstruct [⟨"dog", none, "hello"⟩, ⟨"hamster", some "cat", "hello"⟩,
        ⟨"cat", some "rabbit", "hello"⟩, ⟨"rabbit", some "dog", "hello"⟩] = .ok wb ∧
      wbItems wb = [⟨"dog", none, "hello"⟩, ⟨"rabbit", some "dog", "hello"⟩,
        ⟨"cat", some "rabbit", "hello"⟩, ⟨"hamster", some "cat", "hello"⟩] ∧
      wbTop wb = (wbItems wb).getLast? :=
  construct_chain_round_trip
    [⟨"dog", none, "hello"⟩, ⟨"hamster", some "cat", "hello"⟩,
      ⟨"cat", some "rabbit", "hello"⟩, ⟨"rabbit", some "dog", "hello"⟩]
    [⟨"dog", none, "hello"⟩, ⟨"rabbit", some "dog", "hello"⟩,
      ⟨"cat", some "rabbit", "hello"⟩, ⟨"hamster", some "cat", "hello"⟩]
    (by decide) (by decide)
